import Mathlib

/-!
Verification development for the CV/JD matching engine of the `ats` repository.

The Python source (`backend/app/services/matcher.py` and
`backend/app/services/cv_parser.py`) is shallowly embedded here:

* strings are lists of characters (`Str`), and Python float arithmetic is
  idealized as exact rational / real arithmetic;
* the sentence-embedding model is an explicit parameter
  `e : List Str → List (List ℚ)` (the code's `_embed`, which returns one
  vector per input string);
* `datetime.utcnow()` is an explicit `today : PDate` parameter;
* results of the external `dateutil` parser are modelled as `Option PDate`
  (`none` = missing or unparseable date), matching `_to_date_or_none` and
  `_to_iso`;
* fallible code (`_mean_pool` raising on an empty array) returns `Option`.
-/

/-- Strings are modelled as lists of characters. -/
abbrev Str := List Char

/-- Characters treated as whitespace by the regex `\s` (ASCII fragment). -/
def isSpaceChar (c : Char) : Bool :=
  c = ' ' || c = '\t' || c = '\n' || c = '\r' || c = '\x0b' || c = '\x0c'

/-- Replace every maximal run of whitespace by a single space, tracking whether
the previous kept character position was inside a whitespace run.  This is
`re.sub(r"\s+", " ", s)` from `_normspace`. -/
def collapseWS : Bool → Str → Str
  | _, [] => []
  | prevWS, c :: cs =>
    if isSpaceChar c then
      if prevWS then collapseWS true cs
      else ' ' :: collapseWS true cs
    else c :: collapseWS false cs

/-- Remove leading and trailing whitespace, as Python's `str.strip()`. -/
def stripWS (l : Str) : Str :=
  ((l.dropWhile (fun c => isSpaceChar c)).reverse.dropWhile
    (fun c => isSpaceChar c)).reverse

/-- `_normspace`: collapse internal whitespace runs to single spaces, then
strip both ends. -/
def normspace (l : Str) : Str := stripWS (collapseWS false l)

/-- Lowercase every character, as Python's `str.lower()` (ASCII fragment). -/
def toLowerStr (l : Str) : Str := l.map Char.toLower

/-- Loop of `_lower_dedup`: normalize each item, drop empties and items seen
before (first occurrence kept, order preserved). -/
def lowerDedupGo (seen : List Str) : List Str → List Str
  | [] => []
  | x :: xs =>
    let v := toLowerStr (normspace x)
    if v = [] ∨ v ∈ seen then lowerDedupGo seen xs
    else v :: lowerDedupGo (v :: seen) xs

/-- `_lower_dedup`: whitespace-normalized, lowercased, empty-free,
order-preserving deduplicated list of strings. -/
def lower_dedup (items : List Str) : List Str := lowerDedupGo [] items

/-- Python's substring test `s in t` (contiguous substring). -/
def isSubstring (s t : Str) : Bool :=
  match t with
  | [] => s.isEmpty
  | c :: t2 => s.isPrefixOf (c :: t2) || isSubstring s t2

/-- Dot product of two coordinate lists, `np.dot` on equal-length vectors
(`zipWith` truncates to the shorter length, which never differs in the code).
This is `_cos` on already-normalized vectors. -/
def dotL {α : Type} [CommRing α] (a b : List α) : α :=
  (List.zipWith (fun x y => x * y) a b).sum

/-- Sum of squared coordinates of a vector (the square of its L2 norm). -/
def sumSqL {α : Type} [CommRing α] (v : List α) : α :=
  (v.map (fun x => x * x)).sum

/-- Componentwise sum of a list of vectors (rectangular in all uses). -/
def vsumL : List (List ℚ) → List ℚ
  | [] => []
  | [v] => v
  | v :: w :: vs => List.zipWith (fun x y => x + y) v (vsumL (w :: vs))

/-- Componentwise mean of a list of vectors: `vectors.mean(axis=0)`. -/
def meanVec (vs : List (List ℚ)) : List ℚ :=
  (vsumL vs).map (fun x => x / (vs.length : ℚ))

/-- Calendar date reduced to the fields the code reads (`.year`, `.month`). -/
structure PDate where
  year : ℤ
  month : ℤ

/-- Value found under the `duration_months` key of an experience entry:
either a Python `int` or a value of some other runtime type (the code tests
`isinstance(dm, int)`). -/
inductive DMVal
  | intVal (n : ℤ)
  | nonIntVal

/-- Experience entry as read by the matcher: `duration_months` may be absent
or non-integer, and the date fields are modelled post-`_to_date_or_none`
(`none` = key absent, empty, or unparseable). -/
structure MExp where
  duration_months : Option DMVal := none
  start_date : Option PDate := none
  end_date : Option PDate := none

/-- The `profile.basics` sub-object of a CV record.  The code reads every
field through `.get(key, "")`, so an absent field and an empty string are
indistinguishable; both are modelled by `[]`. -/
structure Basics where
  first_name : Str := []
  last_name : Str := []
  current_title : Str := []
  location : Str := []

/-- CV record as consumed by the matcher. -/
structure CVRec where
  basics : Basics := {}
  skills : List Str := []
  certifications : List Str := []
  experience : List MExp := []

/-- Value found under `experience_required_years` of a JD record: a value
`float()` accepts (number or numeric string), or one it rejects. -/
inductive JNum
  | num (q : ℚ)
  | nonNum

/-- JD record as consumed by the matcher (`job_profile.basics.title` is
flattened to `title`). -/
structure JDRec where
  title : Str := []
  skills : List Str := []
  required_certifications : List Str := []
  experience_required_years : Option JNum := none
  jd_text : Str := []

/-- Caller-supplied weight overrides: each of the five recognized keys may be
present or absent in the request's weights mapping. -/
structure WOv where
  title : Option ℚ := none
  skills : Option ℚ := none
  certifications : Option ℚ := none
  experience : Option ℚ := none
  location : Option ℚ := none

/-- Fully-merged weight vector with all five keys present. -/
structure WVec where
  title : ℚ
  skills : ℚ
  certifications : ℚ
  experience : ℚ
  location : ℚ

/-- `DEFAULT_WEIGHTS`. -/
def DEFAULT_WEIGHTS : WVec :=
  { title := 1/4, skills := 1/4, certifications := 3/20,
    experience := 1/5, location := 1/20 }

/-- Python's `{**DEFAULT_WEIGHTS, **(weights or {})}`: caller keys override
the defaults key by key. -/
def mergeW (w : Option WOv) : WVec :=
  match w with
  | none => DEFAULT_WEIGHTS
  | some o =>
    { title := o.title.getD DEFAULT_WEIGHTS.title,
      skills := o.skills.getD DEFAULT_WEIGHTS.skills,
      certifications := o.certifications.getD DEFAULT_WEIGHTS.certifications,
      experience := o.experience.getD DEFAULT_WEIGHTS.experience,
      location := o.location.getD DEFAULT_WEIGHTS.location }

/-- Months contributed by one experience entry when the code falls back to
the date fields: zero without a start date, else the month difference to the
end date (or to `today`), counted only when strictly positive. -/
def dateMonths (today : PDate) (e : MExp) : ℤ :=
  match e.start_date with
  | none => 0
  | some s =>
    if 0 < ((e.end_date.getD today).year - s.year) * 12
        + ((e.end_date.getD today).month - s.month) then
      ((e.end_date.getD today).year - s.year) * 12
        + ((e.end_date.getD today).month - s.month)
    else 0

/-- Loop body of `_cv_experience_years`: prefer `duration_months` when it is
an `int` that is `>= 0`, otherwise compute from the dates. -/
def entryMonths (today : PDate) (e : MExp) : ℤ :=
  match e.duration_months with
  | some (DMVal.intVal n) => if 0 ≤ n then n else dateMonths today e
  | some DMVal.nonIntVal => dateMonths today e
  | none => dateMonths today e

/-- `_cv_experience_years`: total months over all entries, divided by 12 and
clamped to `[0, 40]`. -/
def cv_experience_years (today : PDate) (cv : CVRec) : ℚ :=
  max 0 (min 40
    (((cv.experience.foldl (fun acc e => acc + entryMonths today e) 0 : ℤ) : ℚ) / 12))

/-- Required years read off the JD record: `float(jd_req)` when present and
convertible, else `0.0` (also on conversion failure). -/
def jdYears (jd : JDRec) : ℚ :=
  match jd.experience_required_years with
  | none => 0
  | some (JNum.num q) => q
  | some JNum.nonNum => 0

/-- `_experience_score`: `1.0` when the JD requires nothing (or the
requirement is unusable), else `min(cv_years / jd_years, 1.0)`. -/
def experience_score (today : PDate) (cv : CVRec) (jd : JDRec) : ℚ :=
  if jdYears jd ≤ 0 then 1
  else min (cv_experience_years today cv / jdYears jd) 1

/-- `_location_score`: `1.0` iff the normalized lowercased CV location (of
length at least 3) occurs as a substring of the normalized lowercased JD raw
text; `0.0` otherwise. -/
def location_score (cv : CVRec) (jd : JDRec) : ℚ :=
  if toLowerStr (normspace cv.basics.location) = []
      ∨ toLowerStr (normspace jd.jd_text) = [] then 0
  else if (toLowerStr (normspace cv.basics.location)).length < 3 then 0
  else if isSubstring (toLowerStr (normspace cv.basics.location))
      (toLowerStr (normspace jd.jd_text)) then 1
  else 0

/-- `_months_between_if_both` from the CV parser: zero unless both dates are
present, else the month difference floored at zero.  The inputs model the
results of `_to_iso` (`none` = missing, blank, or unparseable date); the
re-parse of an ISO string inside the function always succeeds, so its
`except` branch is unreachable on these inputs. -/
def months_between_if_both (s e : Option PDate) : ℤ :=
  match s, e with
  | some sd, some ed =>
    if 0 ≤ (ed.year - sd.year) * 12 + (ed.month - sd.month) then
      (ed.year - sd.year) * 12 + (ed.month - sd.month)
    else 0
  | _, _ => 0

/-- Experience entry as it reaches the normalization step of the CV parser:
date fields model the result of `_to_iso` on the raw strings, and the
LLM-supplied `duration_months` may hold anything. -/
structure RawExp where
  title : Str := []
  company : Str := []
  start_date : Option PDate := none
  end_date : Option PDate := none
  duration_months : Option DMVal := none

/-- Experience entry after `normalize_cv`: `duration_months` is always
present (an unconditional assignment in the code), hence a total field. -/
structure NExp where
  title : Str
  company : Str
  start_date : Option PDate
  end_date : Option PDate
  duration_months : ℤ

/-- Date-and-duration portion of the experience loop of `normalize_cv`:
normalize title/company, keep the parsed dates, and overwrite
`duration_months` with `_months_between_if_both` of the parsed dates. -/
def normalizeExpEntry (e : RawExp) : NExp :=
  { title := normspace e.title,
    company := normspace e.company,
    start_date := e.start_date,
    end_date := e.end_date,
    duration_months := months_between_if_both e.start_date e.end_date }

/-- Experience list normalization of `normalize_cv`. -/
def normalizeExperience (es : List RawExp) : List NExp :=
  es.map normalizeExpEntry

/-- Cast a rational vector to a real vector. -/
def castVec (v : List ℚ) : List ℝ := v.map (fun (q : ℚ) => (q : ℝ))

/-- `_mean_pool`: `none` models the `ValueError` raised on an empty array;
otherwise the componentwise mean, re-normalized to unit L2 length unless its
norm is zero, in which case it is returned unnormalized. -/
noncomputable def mean_pool (vs : List (List ℚ)) : Option (List ℝ) :=
  if vs = [] then none
  else if Real.sqrt ((sumSqL (meanVec vs) : ℚ) : ℝ) = 0 then
    some (castVec (meanVec vs))
  else
    some ((meanVec vs).map
      (fun (q : ℚ) => (q : ℝ) / Real.sqrt ((sumSqL (meanVec vs) : ℚ) : ℝ)))

/-- `_title_similarity`: `0.0` when either normalized title is empty, else
the dot product of the two embedding vectors returned for the title pair. -/
def title_similarity (e : List Str → List (List ℚ)) (cv : CVRec) (jd : JDRec) : ℚ :=
  if normspace cv.basics.current_title = [] ∨ normspace jd.title = [] then 0
  else
    dotL ((e [normspace cv.basics.current_title, normspace jd.title]).getD 0 [])
      ((e [normspace cv.basics.current_title, normspace jd.title]).getD 1 [])

/-- `_skills_similarity`: `0.0` when either deduplicated skill list is empty,
else the dot product of the two mean-pooled embedding vectors.  The final
match arm models the `ValueError` path of `_mean_pool`, which is unreachable
because `_embed` returns one vector per input string. -/
noncomputable def skills_similarity (e : List Str → List (List ℚ)) (cv : CVRec) (jd : JDRec) : ℝ :=
  if lower_dedup cv.skills = [] ∨ lower_dedup jd.skills = [] then 0
  else
    match mean_pool (e (lower_dedup cv.skills)),
        mean_pool (e (lower_dedup jd.skills)) with
    | some u, some v => dotL u v
    | _, _ => 0

/-- `_certs_similarity`: same algorithm as the skills score, applied to the
certification lists. -/
noncomputable def certs_similarity (e : List Str → List (List ℚ)) (cv : CVRec) (jd : JDRec) : ℝ :=
  if lower_dedup cv.certifications = []
      ∨ lower_dedup jd.required_certifications = [] then 0
  else
    match mean_pool (e (lower_dedup cv.certifications)),
        mean_pool (e (lower_dedup jd.required_certifications)) with
    | some u, some v => dotL u v
    | _, _ => 0

/-- Round-half-to-even to an integer, as Python's builtin `round` on the
(idealized exact) value. -/
noncomputable def rhe (y : ℝ) : ℤ :=
  if y - (⌊y⌋ : ℝ) < 1/2 then ⌊y⌋
  else if 1/2 < y - (⌊y⌋ : ℝ) then ⌊y⌋ + 1
  else if ⌊y⌋ % 2 = 0 then ⌊y⌋ else ⌊y⌋ + 1

/-- Python's `round(y, 4)`. -/
noncomputable def round4 (y : ℝ) : ℝ := ((rhe (y * 10000) : ℤ) : ℝ) / 10000

/-- Per-dimension score map of a match result. -/
structure ScoreMap where
  title : ℝ
  skills : ℝ
  certifications : ℝ
  experience : ℝ
  location : ℝ

/-- `compute_match` result record. -/
structure MatchResult where
  candidate_name : Str
  cv_title : Str
  jd_title : Str
  scores : ScoreMap
  global_score : ℝ

/-- `compute_match`: merge weights over the defaults, compute the five raw
dimension scores, take the plain weighted sum, and package everything with
4-decimal presentation rounding. -/
noncomputable def compute_match (today : PDate) (e : List Str → List (List ℚ))
    (cv : CVRec) (jd : JDRec) (w : Option WOv) : MatchResult :=
  let wv := mergeW w
  let sTitle : ℝ := ((title_similarity e cv jd : ℚ) : ℝ)
  let sSkills : ℝ := skills_similarity e cv jd
  let sCerts : ℝ := certs_similarity e cv jd
  let sExp : ℝ := ((experience_score today cv jd : ℚ) : ℝ)
  let sLoc : ℝ := ((location_score cv jd : ℚ) : ℝ)
  let globalScore : ℝ :=
    (wv.title : ℝ) * sTitle + (wv.skills : ℝ) * sSkills
      + (wv.certifications : ℝ) * sCerts + (wv.experience : ℝ) * sExp
      + (wv.location : ℝ) * sLoc
  { candidate_name :=
      normspace (cv.basics.first_name ++ [' '] ++ cv.basics.last_name),
    cv_title := normspace cv.basics.current_title,
    jd_title := normspace jd.title,
    scores :=
      { title := round4 sTitle, skills := round4 sSkills,
        certifications := round4 sCerts, experience := round4 sExp,
        location := round4 sLoc },
    global_score := round4 globalScore }

/-- The five scored dimensions. -/
inductive Dim
  | title
  | skills
  | certifications
  | experience
  | location

/-- The five dimensions in the order the code lists them. -/
def dims : List Dim :=
  [Dim.title, Dim.skills, Dim.certifications, Dim.experience, Dim.location]

/-- Weight of one dimension in a merged weight vector. -/
def wOf (wv : WVec) : Dim → ℚ
  | Dim.title => wv.title
  | Dim.skills => wv.skills
  | Dim.certifications => wv.certifications
  | Dim.experience => wv.experience
  | Dim.location => wv.location

/-- Raw (pre-rounding) score of one dimension, exactly as `compute_match`
computes it. -/
noncomputable def rawScore (today : PDate) (e : List Str → List (List ℚ))
    (cv : CVRec) (jd : JDRec) : Dim → ℝ
  | Dim.title => ((title_similarity e cv jd : ℚ) : ℝ)
  | Dim.skills => skills_similarity e cv jd
  | Dim.certifications => certs_similarity e cv jd
  | Dim.experience => ((experience_score today cv jd : ℚ) : ℝ)
  | Dim.location => ((location_score cv jd : ℚ) : ℝ)

/-- Modelled from the spec's words on aggregation (section 4.4), for
comparison with `compute_match`: only dimensions with weight strictly
positive contribute `weight * score` to the numerator and `weight` to the
denominator; the global score is their quotient, or `0.0` when the
denominator is zero. -/
noncomputable def specGlobalScore (wv : WVec) (s : Dim → ℝ) : ℝ :=
  if (dims.map (fun d => if 0 < wOf wv d then ((wOf wv d : ℚ) : ℝ) else 0)).sum = 0 then 0
  else (dims.map (fun d => if 0 < wOf wv d then ((wOf wv d : ℚ) : ℝ) * s d else 0)).sum
    / (dims.map (fun d => if 0 < wOf wv d then ((wOf wv d : ℚ) : ℝ) else 0)).sum

/-- Modelled from the words of claim C5, for comparison with
`_cv_experience_years`: an entry contributes its `duration_months` whenever
that field is present (as an integer), otherwise the month difference from
start to end (or to today), with entries lacking a start date contributing
zero; years are clamped to `[0, 40]`. -/
def claimEntryMonths (today : PDate) (e : MExp) : ℤ :=
  match e.duration_months with
  | some (DMVal.intVal n) => n
  | _ =>
    match e.start_date with
    | none => 0
    | some s =>
      ((e.end_date.getD today).year - s.year) * 12
        + ((e.end_date.getD today).month - s.month)

/-- Modelled from the words of claim C5 (continued): total of the per-entry
contributions, in years, clamped to `[0, 40]`. -/
def claimCvExperienceYears (today : PDate) (cv : CVRec) : ℚ :=
  max 0 (min 40 ((((cv.experience.map (claimEntryMonths today)).sum : ℤ) : ℚ) / 12))

/-- Unfolding lemma: squared norm of the empty vector. -/
@[simp] theorem sumSqL_nil {α : Type} [CommRing α] : sumSqL ([] : List α) = 0 := rfl

/-- Unfolding lemma: squared norm of a cons. -/
@[simp] theorem sumSqL_cons {α : Type} [CommRing α] (x : α) (xs : List α) :
    sumSqL (x :: xs) = x * x + sumSqL xs := by
  simp [sumSqL]

/-- Unfolding lemma: dot product with an empty left vector. -/
@[simp] theorem dotL_nil_left {α : Type} [CommRing α] (b : List α) :
    dotL ([] : List α) b = 0 := rfl

/-- Unfolding lemma: dot product with an empty right vector. -/
@[simp] theorem dotL_nil_right {α : Type} [CommRing α] (a : List α) :
    dotL a ([] : List α) = 0 := by
  cases a <;> rfl

/-- Unfolding lemma: dot product of two conses. -/
@[simp] theorem dotL_cons {α : Type} [CommRing α] (x y : α) (xs ys : List α) :
    dotL (x :: xs) (y :: ys) = x * y + dotL xs ys := by
  simp [dotL]

/-- A sum of squares is non-negative. -/
theorem sumSqL_nonneg {α : Type} [LinearOrderedCommRing α] (v : List α) :
    0 ≤ sumSqL v := by
  induction v with
  | nil => simp
  | cons x xs ih =>
    rw [sumSqL_cons]
    exact add_nonneg (mul_self_nonneg x) ih

/-- Cauchy–Schwarz inequality for the list dot product. -/
theorem dotL_sq_le {α : Type} [LinearOrderedCommRing α] :
    ∀ a b : List α, dotL a b ^ 2 ≤ sumSqL a * sumSqL b := by
  intro a
  induction a with
  | nil => intro b; simp
  | cons x xs ih =>
    intro b
    cases b with
    | nil => simp
    | cons y ys =>
      have IH := ih ys
      have hA := sumSqL_nonneg xs
      have hB := sumSqL_nonneg ys
      rw [dotL_cons, sumSqL_cons, sumSqL_cons]
      rcases eq_or_lt_of_le hB with hB0 | hBpos
      · have hd2 : dotL xs ys ^ 2 ≤ 0 := by
          calc dotL xs ys ^ 2 ≤ sumSqL xs * sumSqL ys := IH
          _ = 0 := by rw [← hB0, mul_zero]
        have hd0 : dotL xs ys = 0 := by
          have := sq_nonneg (dotL xs ys)
          have h0 : dotL xs ys ^ 2 = 0 := le_antisymm hd2 this
          exact pow_eq_zero_iff (n := 2) (by norm_num) |>.mp h0
        rw [hd0, ← hB0]
        have hx2 : 0 ≤ sumSqL xs * (y * y) :=
          mul_nonneg hA (mul_self_nonneg y)
        nlinarith [hx2]
      · have key : 0 ≤ (y * y + sumSqL ys) * (sumSqL xs * sumSqL ys - dotL xs ys ^ 2) :=
          mul_nonneg (add_nonneg (mul_self_nonneg y) hB) (by linarith)
        have key2 : 0 ≤ (x * sumSqL ys - y * dotL xs ys) ^ 2 := sq_nonneg _
        nlinarith [key, key2, hBpos]

/-- A dot product of vectors whose squared norms are at most one lies in the
interval `[-1, 1]`. -/
theorem dotL_bound {α : Type} [LinearOrderedCommRing α] (a b : List α)
    (ha : sumSqL a ≤ 1) (hb : sumSqL b ≤ 1) :
    -1 ≤ dotL a b ∧ dotL a b ≤ 1 := by
  have hsq := dotL_sq_le a b
  have ha0 := sumSqL_nonneg a
  have hb0 := sumSqL_nonneg b
  have h1 : sumSqL a * sumSqL b ≤ 1 := mul_le_one₀ ha hb0 hb
  constructor
  · nlinarith [sq_nonneg (dotL a b + 1)]
  · nlinarith [sq_nonneg (dotL a b - 1)]

/-- Squared norm of the real cast of a rational vector. -/
theorem sumSqL_castVec (v : List ℚ) :
    sumSqL (castVec v) = ((sumSqL v : ℚ) : ℝ) := by
  induction v with
  | nil => simp [castVec]
  | cons x xs ih =>
    simp only [castVec, List.map_cons, sumSqL_cons] at *
    rw [ih]
    push_cast
    ring

/-- Squared norm of a rational vector cast to the reals and scaled by `1/c`
(also valid for `c = 0`, where both sides vanish). -/
theorem sumSqL_map_div (v : List ℚ) (c : ℝ) :
    sumSqL (v.map (fun (q : ℚ) => (q : ℝ) / c)) = ((sumSqL v : ℚ) : ℝ) / (c * c) := by
  induction v with
  | nil => simp
  | cons x xs ih =>
    simp only [List.map_cons, sumSqL_cons]
    rw [ih, div_mul_div_comm, div_add_div_same]
    push_cast
    ring_nf

/-- Any vector produced by `_mean_pool` has squared norm at most one: it is
either the zero mean (returned unnormalized) or a unit vector. -/
theorem mean_pool_sumSq_le_one (vs : List (List ℚ)) (u : List ℝ)
    (h : mean_pool vs = some u) : sumSqL u ≤ 1 := by
  unfold mean_pool at h
  split_ifs at h with h1 h2
  · have hS0 : ((sumSqL (meanVec vs) : ℚ) : ℝ) ≤ 0 := Real.sqrt_eq_zero'.mp h2
    have hS1 : (0 : ℝ) ≤ ((sumSqL (meanVec vs) : ℚ) : ℝ) := by
      exact_mod_cast sumSqL_nonneg (meanVec vs)
    obtain rfl : castVec (meanVec vs) = u := Option.some.inj h
    rw [sumSqL_castVec]
    linarith
  · have hS1 : (0 : ℝ) ≤ ((sumSqL (meanVec vs) : ℚ) : ℝ) := by
      exact_mod_cast sumSqL_nonneg (meanVec vs)
    obtain rfl :
        (meanVec vs).map
          (fun (q : ℚ) => (q : ℝ) / Real.sqrt ((sumSqL (meanVec vs) : ℚ) : ℝ)) = u :=
      Option.some.inj h
    rw [sumSqL_map_div, Real.mul_self_sqrt hS1]
    rcases eq_or_lt_of_le hS1 with hz | hp
    · rw [← hz]
      norm_num
    · rw [div_self (ne_of_gt hp)]

/-- Round-half-to-even of an integer is that integer. -/
theorem rhe_intCast (n : ℤ) : rhe ((n : ℤ) : ℝ) = n := by
  unfold rhe
  rw [Int.floor_intCast]
  norm_num

/-- `round4` of a value that is an exact multiple of `1/10000`. -/
theorem round4_eq_of_mul (x : ℝ) (n : ℤ) (h : x * 10000 = (n : ℝ)) :
    round4 x = (n : ℝ) / 10000 := by
  unfold round4
  rw [h, rhe_intCast]

/-- Round-half-to-even never crosses an integer upper bound. -/
theorem rhe_le (y : ℝ) (n : ℤ) (h : y ≤ (n : ℝ)) : rhe y ≤ n := by
  have hf : ⌊y⌋ ≤ n := by
    have h2 := Int.floor_le_floor h
    rwa [Int.floor_intCast] at h2
  have hstep : ¬ y - (⌊y⌋ : ℝ) < 1 / 2 → ⌊y⌋ + 1 ≤ n := by
    intro h1
    rcases lt_or_eq_of_le hf with hlt | heq
    · omega
    · exfalso
      have hy : (1 : ℝ) / 2 ≤ y - (⌊y⌋ : ℝ) := le_of_not_lt h1
      have hc : ((⌊y⌋ : ℤ) : ℝ) = (n : ℝ) := by exact_mod_cast heq
      linarith
  unfold rhe
  split_ifs with h1 h2 h3
  · exact hf
  · exact hstep h1
  · exact hf
  · exact hstep h1

/-- Round-half-to-even never crosses an integer lower bound. -/
theorem le_rhe (y : ℝ) (n : ℤ) (h : (n : ℝ) ≤ y) : n ≤ rhe y := by
  have hf : n ≤ ⌊y⌋ := Int.le_floor.mpr h
  unfold rhe
  split_ifs with h1 h2 h3
  · exact hf
  · omega
  · exact hf
  · omega

/-- `round4` never crosses an integer upper bound. -/
theorem round4_le_int (x : ℝ) (n : ℤ) (h : x ≤ (n : ℝ)) : round4 x ≤ (n : ℝ) := by
  unfold round4
  have h1 : x * 10000 ≤ ((n * 10000 : ℤ) : ℝ) := by
    push_cast
    nlinarith
  have h2 := rhe_le _ _ h1
  have h3 : ((rhe (x * 10000) : ℤ) : ℝ) ≤ ((n * 10000 : ℤ) : ℝ) := by
    exact_mod_cast h2
  push_cast at h3
  linarith

/-- `round4` never crosses an integer lower bound. -/
theorem int_le_round4 (x : ℝ) (n : ℤ) (h : (n : ℝ) ≤ x) : (n : ℝ) ≤ round4 x := by
  unfold round4
  have h1 : ((n * 10000 : ℤ) : ℝ) ≤ x * 10000 := by
    push_cast
    nlinarith
  have h2 := le_rhe _ _ h1
  have h3 : ((n * 10000 : ℤ) : ℝ) ≤ ((rhe (x * 10000) : ℤ) : ℝ) := by
    exact_mod_cast h2
  push_cast at h3
  linarith

/-- Folding addition of mapped values over a list equals the starting value
plus the sum of the mapped list (shape of the `_cv_experience_years` loop). -/
theorem foldl_add_eq_sum {β : Type} (f : β → ℤ) (l : List β) (a : ℤ) :
    l.foldl (fun acc e => acc + f e) a = a + (l.map f).sum := by
  induction l generalizing a with
  | nil => simp
  | cons x xs ih =>
    simp only [List.foldl_cons, List.map_cons, List.sum_cons]
    rw [ih]
    ring

/-- A substring of the empty string must itself be empty. -/
theorem isSubstring_nil (s : Str) : isSubstring s [] = s.isEmpty := rfl

/-- C3: with the JD requirement fixed and positive, the experience score is
`min(cv_years / jd_years, 1.0)`, it is non-decreasing in the CV's computed
experience years, and it equals `1.0` exactly when `cv_years >= jd_years`. -/
theorem experience_score_ratio_and_monotone (today : PDate) (jd : JDRec) (q : ℚ)
    (hq : jd.experience_required_years = some (JNum.num q)) (hpos : 0 < q) :
    (∀ cv : CVRec,
      experience_score today cv jd = min (cv_experience_years today cv / q) 1) ∧
    (∀ cva cvb : CVRec,
      cv_experience_years today cva ≤ cv_experience_years today cvb →
      experience_score today cva jd ≤ experience_score today cvb jd) ∧
    (∀ cv : CVRec,
      experience_score today cv jd = 1 ↔ q ≤ cv_experience_years today cv) := by
  have hjdY : jdYears jd = q := by simp [jdYears, hq]
  have hform : ∀ cv : CVRec,
      experience_score today cv jd = min (cv_experience_years today cv / q) 1 := by
    intro cv
    unfold experience_score
    rw [hjdY, if_neg (not_le.mpr hpos)]
  refine ⟨hform, ?_, ?_⟩
  · intro cva cvb h
    rw [hform, hform]
    exact min_le_min ((div_le_div_iff_of_pos_right hpos).mpr h) le_rfl
  · intro cv
    rw [hform, min_eq_right_iff, one_le_div hpos]

/-- Witness for C3 at a concrete JD requiring 6 years and a CV with 36
months of experience (score `min(3/6, 1) = 1/2`). -/
theorem experience_score_ratio_and_monotone_witness :
    ({ experience_required_years := some (JNum.num 6) } : JDRec).experience_required_years
        = some (JNum.num 6) ∧
    (0 : ℚ) < 6 ∧
    experience_score ⟨2025, 10⟩
        { experience := [{ duration_months := some (DMVal.intVal 36) }] }
        { experience_required_years := some (JNum.num 6) }
      = min (cv_experience_years ⟨2025, 10⟩
          { experience := [{ duration_months := some (DMVal.intVal 36) }] } / 6) 1 :=
  ⟨rfl, by norm_num,
    (experience_score_ratio_and_monotone ⟨2025, 10⟩
      { experience_required_years := some (JNum.num 6) } 6 rfl (by norm_num)).1
      { experience := [{ duration_months := some (DMVal.intVal 36) }] }⟩

/-- C4: when the JD's required-years field is absent, not convertible to a
number, or non-positive, the experience score is exactly `1.0` regardless of
the CV. -/
theorem experience_score_no_requirement (today : PDate) (cv : CVRec) (jd : JDRec)
    (h : jd.experience_required_years = none
      ∨ jd.experience_required_years = some JNum.nonNum
      ∨ ∃ q, jd.experience_required_years = some (JNum.num q) ∧ q ≤ 0) :
    experience_score today cv jd = 1 := by
  have hle : jdYears jd ≤ 0 := by
    rcases h with h | h | ⟨q, hq, hq0⟩
    · simp [jdYears, h]
    · simp [jdYears, h]
    · simp only [jdYears, hq]
      exact hq0
  unfold experience_score
  rw [if_pos hle]

/-- Witness for C4 at a JD with no requirement and a CV with 120 months of
experience. -/
theorem experience_score_no_requirement_witness :
    (({} : JDRec).experience_required_years = none
      ∨ ({} : JDRec).experience_required_years = some JNum.nonNum
      ∨ ∃ q, ({} : JDRec).experience_required_years = some (JNum.num q) ∧ q ≤ 0) ∧
    experience_score ⟨2025, 10⟩
      { experience := [{ duration_months := some (DMVal.intVal 120) }] } {} = 1 :=
  ⟨Or.inl rfl,
    experience_score_no_requirement ⟨2025, 10⟩
      { experience := [{ duration_months := some (DMVal.intVal 120) }] } {} (Or.inl rfl)⟩

/-- C5 (amended): the CV experience-years value is the clamp to `[0, 40]` of
the summed per-entry months divided by 12, where an entry contributes its
`duration_months` only when that field holds a non-negative integer, falls
back to the start-to-end (or start-to-today) month difference counted only
when strictly positive, and contributes zero without a start date. -/
theorem cv_experience_years_closed_form (today : PDate) (cv : CVRec) :
    cv_experience_years today cv =
      max 0 (min 40 ((((cv.experience.map (entryMonths today)).sum : ℤ) : ℚ) / 12)) ∧
    (∀ en : MExp, ∀ n : ℤ, en.duration_months = some (DMVal.intVal n) → 0 ≤ n →
      entryMonths today en = n) ∧
    (∀ en : MExp, ∀ s : PDate,
      (en.duration_months = none ∨ en.duration_months = some DMVal.nonIntVal ∨
        ∃ n, en.duration_months = some (DMVal.intVal n) ∧ n < 0) →
      en.start_date = some s →
      entryMonths today en =
        max 0 (((en.end_date.getD today).year - s.year) * 12 +
          ((en.end_date.getD today).month - s.month))) ∧
    (∀ en : MExp,
      (en.duration_months = none ∨ en.duration_months = some DMVal.nonIntVal ∨
        ∃ n, en.duration_months = some (DMVal.intVal n) ∧ n < 0) →
      en.start_date = none → entryMonths today en = 0) := by
  have hdm : ∀ en : MExp,
      (en.duration_months = none ∨ en.duration_months = some DMVal.nonIntVal ∨
        ∃ n, en.duration_months = some (DMVal.intVal n) ∧ n < 0) →
      entryMonths today en = dateMonths today en := by
    intro en h
    rcases h with h | h | ⟨n, h, hn⟩
    · simp [entryMonths, h]
    · simp [entryMonths, h]
    · simp [entryMonths, h, if_neg (not_le.mpr hn)]
  refine ⟨?_, ?_, ?_, ?_⟩
  · unfold cv_experience_years
    rw [foldl_add_eq_sum]
    norm_num
  · intro en n h hn
    simp [entryMonths, h, hn]
  · intro en s h hs
    rw [hdm en h]
    simp only [dateMonths, hs]
    split_ifs with h1 <;> omega
  · intro en h hs
    rw [hdm en h]
    simp [dateMonths, hs]

/-- Witness for C5 (amended) at one entry carrying `duration_months = 24`
and no dates. -/
theorem cv_experience_years_closed_form_witness :
    cv_experience_years ⟨2025, 1⟩
        { experience := [{ duration_months := some (DMVal.intVal 24) }] } =
      max 0 (min 40
        ((((([({ duration_months := some (DMVal.intVal 24) } : MExp)].map
          (entryMonths ⟨2025, 1⟩)).sum : ℤ) : ℚ)) / 12)) ∧
    entryMonths ⟨2025, 1⟩ { duration_months := some (DMVal.intVal 24) } = 24 :=
  ⟨(cv_experience_years_closed_form ⟨2025, 1⟩
      { experience := [{ duration_months := some (DMVal.intVal 24) }] }).1,
    (cv_experience_years_closed_form ⟨2025, 1⟩
      { experience := [{ duration_months := some (DMVal.intVal 24) }] }).2.1
      { duration_months := some (DMVal.intVal 24) } 24 rfl (by norm_num)⟩

/-- Counterexample to C5 as stated: an entry with the present value
`duration_months = -5` and dates spanning 12 months.  The code ignores the
negative integer and counts 12 months from the dates (one year); the claim's
rule ("contributes its duration_months when that field is present") yields
-5 months, clamped to zero years. -/
theorem cv_experience_years_claim_cex :
    cv_experience_years ⟨2025, 10⟩
        { experience := [{ duration_months := some (DMVal.intVal (-5)), start_date := some ⟨2020, 1⟩, end_date := some ⟨2021, 1⟩ }] } = 1 ∧
    claimCvExperienceYears ⟨2025, 10⟩
        { experience := [{ duration_months := some (DMVal.intVal (-5)), start_date := some ⟨2020, 1⟩, end_date := some ⟨2021, 1⟩ }] } = 0 ∧
    (1 : ℚ) ≠ 0 := by
  refine ⟨?_, ?_, by norm_num⟩
  · norm_num [cv_experience_years, entryMonths, dateMonths, min_def, max_def]
  · norm_num [claimCvExperienceYears, claimEntryMonths, min_def, max_def]

/-- C6: an empty (after normalization and deduplication) skill list on either
side forces a skills score of exactly `0.0`. -/
theorem skills_similarity_absent_zero (e : List Str → List (List ℚ))
    (cv : CVRec) (jd : JDRec)
    (h : lower_dedup cv.skills = [] ∨ lower_dedup jd.skills = []) :
    skills_similarity e cv jd = 0 := by
  unfold skills_similarity
  rw [if_pos h]

/-- Witness for C6: a CV whose only skill is the blank string (normalized
away) against a JD with a real skill list, under an arbitrary embedder. -/
theorem skills_similarity_absent_zero_witness :
    (lower_dedup ([[' ']] : List Str) = [] ∨ lower_dedup [['a']] = []) ∧
    skills_similarity (fun _ => [[1]]) { skills := [[' ']] }
      ({ skills := [['a']] } : JDRec) = 0 :=
  ⟨Or.inl (by decide),
    skills_similarity_absent_zero (fun _ => [[1]]) { skills := [[' ']] }
      { skills := [['a']] } (Or.inl (by decide))⟩

/-- C7: the location score is `1.0` exactly when the normalized lowercased
CV location has length at least 3 and occurs verbatim in the normalized
lowercased JD text, and `0.0` otherwise; in particular any location shorter
than 3 characters scores `0.0`. -/
theorem location_score_substring_rule (cv : CVRec) (jd : JDRec) :
    (location_score cv jd =
      if 3 ≤ (toLowerStr (normspace cv.basics.location)).length ∧
          isSubstring (toLowerStr (normspace cv.basics.location))
            (toLowerStr (normspace jd.jd_text)) = true
      then 1 else 0) ∧
    ((toLowerStr (normspace cv.basics.location)).length < 3 →
      location_score cv jd = 0) := by
  constructor
  · unfold location_score
    by_cases hA : toLowerStr (normspace cv.basics.location) = []
        ∨ toLowerStr (normspace jd.jd_text) = []
    · rw [if_pos hA, eq_comm, ite_eq_right_iff]
      intro hand
      exfalso
      rcases hA with h | h
      · rw [h] at hand
        simp at hand
      · rcases hand with ⟨h3, hsub⟩
        rw [h, isSubstring_nil] at hsub
        rcases hloc : toLowerStr (normspace cv.basics.location) with _ | ⟨a, as⟩
        · rw [hloc] at h3
          simp at h3
        · rw [hloc] at hsub
          simp [List.isEmpty] at hsub
    · rw [if_neg hA]
      by_cases hB : (toLowerStr (normspace cv.basics.location)).length < 3
      · rw [if_pos hB, eq_comm, ite_eq_right_iff]
        intro hand
        omega
      · rw [if_neg hB]
        by_cases hC : isSubstring (toLowerStr (normspace cv.basics.location))
            (toLowerStr (normspace jd.jd_text)) = true
        · rw [if_pos hC, if_pos ⟨by omega, hC⟩]
        · rw [if_neg hC, if_neg]
          intro hand
          exact hC hand.2
  · intro h3
    unfold location_score
    by_cases hA : toLowerStr (normspace cv.basics.location) = []
        ∨ toLowerStr (normspace jd.jd_text) = []
    · rw [if_pos hA]
    · rw [if_neg hA, if_pos h3]

/-- Witness for C7: CV location "Paris" inside a JD text mentioning
"office located in paris, france", and the short location "NY" scoring zero.
The length hypothesis of the second conjunct is discharged at "NY". -/
theorem location_score_substring_rule_witness :
    location_score
        { basics := { location := "Paris".toList } }
        ({ jd_text := "Office located in Paris, France".toList } : JDRec) =
      (if 3 ≤ (toLowerStr (normspace "Paris".toList)).length ∧
          isSubstring (toLowerStr (normspace "Paris".toList))
            (toLowerStr (normspace "Office located in Paris, France".toList)) = true
        then 1 else 0) ∧
    (toLowerStr (normspace "NY".toList)).length < 3 ∧
    location_score { basics := { location := "NY".toList } }
      ({ jd_text := "Office located in Paris, France".toList } : JDRec) = 0 :=
  ⟨(location_score_substring_rule
      { basics := { location := "Paris".toList } }
      { jd_text := "Office located in Paris, France".toList }).1,
    by decide,
    (location_score_substring_rule
      { basics := { location := "NY".toList } }
      { jd_text := "Office located in Paris, France".toList }).2 (by decide)⟩

/-- C9: two calls of `compute_match` on identical inputs under the same
embedding model return identical results (the embedding is pure in this
model, and the function builds a fresh result without touching its inputs). -/
theorem compute_match_deterministic (today : PDate)
    (e : List Str → List (List ℚ)) (cv : CVRec) (jd : JDRec) (w : Option WOv)
    (ra rb : MatchResult)
    (h1 : ra = compute_match today e cv jd w)
    (h2 : rb = compute_match today e cv jd w) : ra = rb := by
  rw [h1, h2]

/-- Witness for C9 at a concrete embedder and empty records. -/
theorem compute_match_deterministic_witness :
    compute_match ⟨2025, 10⟩ (fun _ => [[1]]) {} {} none =
      compute_match ⟨2025, 10⟩ (fun _ => [[1]]) {} {} none :=
  compute_match_deterministic ⟨2025, 10⟩ (fun _ => [[1]]) {} {} none _ _ rfl rfl

/-- C10: after CV normalization, `duration_months` is always present and
non-negative; it is the start-to-end month difference when both dates parsed
and that difference is non-negative, and zero when a date is missing or
unparseable or the end precedes the start.  The incoming `duration_months`
value is overwritten unconditionally, so every normalized entry (also across
a whole experience list) carries a non-negative integer. -/
theorem normalize_cv_duration_months_invariant (raw : RawExp) :
    (0 ≤ (normalizeExpEntry raw).duration_months) ∧
    (∀ sd ed : PDate, raw.start_date = some sd → raw.end_date = some ed →
      0 ≤ (ed.year - sd.year) * 12 + (ed.month - sd.month) →
      (normalizeExpEntry raw).duration_months =
        (ed.year - sd.year) * 12 + (ed.month - sd.month)) ∧
    (∀ sd ed : PDate, raw.start_date = some sd → raw.end_date = some ed →
      (ed.year - sd.year) * 12 + (ed.month - sd.month) < 0 →
      (normalizeExpEntry raw).duration_months = 0) ∧
    ((raw.start_date = none ∨ raw.end_date = none) →
      (normalizeExpEntry raw).duration_months = 0) ∧
    (∀ dmv : Option DMVal,
      normalizeExpEntry { raw with duration_months := dmv } =
        normalizeExpEntry raw) ∧
    (∀ es : List RawExp, ∀ ne : NExp, ne ∈ normalizeExperience es →
      0 ≤ ne.duration_months) := by
  have hdm : ∀ x : RawExp, (normalizeExpEntry x).duration_months =
      months_between_if_both x.start_date x.end_date := fun _ => rfl
  have hnn : ∀ x : RawExp, 0 ≤ (normalizeExpEntry x).duration_months := by
    intro x
    rw [hdm]
    unfold months_between_if_both
    rcases x.start_date with _ | sd <;> rcases x.end_date with _ | ed <;> simp
    split_ifs with h
    · exact h
    · exact le_refl 0
  refine ⟨hnn raw, ?_, ?_, ?_, fun _ => rfl, ?_⟩
  · intro sd ed hs he hdiff
    rw [hdm]
    simp only [months_between_if_both, hs, he]
    rw [if_pos hdiff]
  · intro sd ed hs he hdiff
    rw [hdm]
    simp only [months_between_if_both, hs, he]
    rw [if_neg (not_le.mpr hdiff)]
  · intro h
    rw [hdm]
    rcases h with h | h <;> rcases hs : raw.start_date with _ | sd <;>
      rcases he : raw.end_date with _ | ed <;>
      simp_all [months_between_if_both]
  · intro es ne hne
    obtain ⟨r, hr, hre⟩ := List.mem_map.mp hne
    rw [← hre]
    exact hnn r

/-- Witness for C10: a normalized entry spanning March 2020 to January 2021
has `duration_months = 10`, and a dateless entry gets zero. -/
theorem normalize_cv_duration_months_invariant_witness :
    (({ start_date := some ⟨2020, 3⟩, end_date := some ⟨2021, 1⟩ } : RawExp).start_date = some ⟨2020, 3⟩) ∧
    (normalizeExpEntry { start_date := some ⟨2020, 3⟩, end_date := some ⟨2021, 1⟩ }).duration_months =
      ((⟨2021, 1⟩ : PDate).year - (⟨2020, 3⟩ : PDate).year) * 12 +
        ((⟨2021, 1⟩ : PDate).month - (⟨2020, 3⟩ : PDate).month) ∧
    (normalizeExpEntry ({ duration_months := some (DMVal.intVal 99) } : RawExp)).duration_months = 0 :=
  ⟨rfl,
    (normalize_cv_duration_months_invariant
      { start_date := some ⟨2020, 3⟩, end_date := some ⟨2021, 1⟩ }).2.1
      ⟨2020, 3⟩ ⟨2021, 1⟩ rfl rfl (by norm_num),
    (normalize_cv_duration_months_invariant
      ({ duration_months := some (DMVal.intVal 99) } : RawExp)).2.2.2.1
      (Or.inl rfl)⟩

/-- Empty-side guard of the skills scorer (helper shared across claims). -/
theorem skills_similarity_zero_of_absent (e : List Str → List (List ℚ))
    (cv : CVRec) (jd : JDRec)
    (h : lower_dedup cv.skills = [] ∨ lower_dedup jd.skills = []) :
    skills_similarity e cv jd = 0 := by
  unfold skills_similarity
  rw [if_pos h]

/-- Empty-side guard of the certifications scorer (helper). -/
theorem certs_similarity_zero_of_absent (e : List Str → List (List ℚ))
    (cv : CVRec) (jd : JDRec)
    (h : lower_dedup cv.certifications = []
      ∨ lower_dedup jd.required_certifications = []) :
    certs_similarity e cv jd = 0 := by
  unfold certs_similarity
  rw [if_pos h]

/-- Unfolding lemma: the global score field of `compute_match` is the
rounded plain weighted sum of the five raw scores. -/
theorem compute_match_global_eq (today : PDate) (e : List Str → List (List ℚ))
    (cv : CVRec) (jd : JDRec) (w : Option WOv) :
    (compute_match today e cv jd w).global_score =
      round4 (((mergeW w).title : ℝ) * ((title_similarity e cv jd : ℚ) : ℝ)
        + ((mergeW w).skills : ℝ) * skills_similarity e cv jd
        + ((mergeW w).certifications : ℝ) * certs_similarity e cv jd
        + ((mergeW w).experience : ℝ) * ((experience_score today cv jd : ℚ) : ℝ)
        + ((mergeW w).location : ℝ) * ((location_score cv jd : ℚ) : ℝ)) := rfl

/-- Unfolding lemma: the rounded per-dimension score fields of
`compute_match`. -/
theorem compute_match_scores_eq (today : PDate) (e : List Str → List (List ℚ))
    (cv : CVRec) (jd : JDRec) (w : Option WOv) :
    (compute_match today e cv jd w).scores =
      { title := round4 ((title_similarity e cv jd : ℚ) : ℝ),
        skills := round4 (skills_similarity e cv jd),
        certifications := round4 (certs_similarity e cv jd),
        experience := round4 ((experience_score today cv jd : ℚ) : ℝ),
        location := round4 ((location_score cv jd : ℚ) : ℝ) } := rfl

/-- Rounding fixes zero. -/
theorem round4_zero : round4 0 = 0 := by
  have h := round4_eq_of_mul 0 0 (by norm_num)
  simpa using h

/-- C1 (amended): the global score is the 4-decimal rounding of the plain
weighted sum of all five dimension scores under the merged weights, with no
division by the sum of positive weights; when every merged weight is zero
the global score is `0.0`. -/
theorem global_score_plain_weighted_sum (today : PDate)
    (e : List Str → List (List ℚ)) (cv : CVRec) (jd : JDRec) (w : Option WOv) :
    (compute_match today e cv jd w).global_score =
      round4 ((dims.map
        (fun d => ((wOf (mergeW w) d : ℚ) : ℝ) * rawScore today e cv jd d)).sum) ∧
    (mergeW w = ⟨0, 0, 0, 0, 0⟩ →
      (compute_match today e cv jd w).global_score = 0) := by
  have hsum : (dims.map
      (fun d => ((wOf (mergeW w) d : ℚ) : ℝ) * rawScore today e cv jd d)).sum =
      ((mergeW w).title : ℝ) * ((title_similarity e cv jd : ℚ) : ℝ)
        + ((mergeW w).skills : ℝ) * skills_similarity e cv jd
        + ((mergeW w).certifications : ℝ) * certs_similarity e cv jd
        + ((mergeW w).experience : ℝ) * ((experience_score today cv jd : ℚ) : ℝ)
        + ((mergeW w).location : ℝ) * ((location_score cv jd : ℚ) : ℝ) := by
    simp only [dims, List.map_cons, List.map_nil, List.sum_cons, List.sum_nil,
      wOf, rawScore]
    ring
  constructor
  · rw [compute_match_global_eq, hsum]
  · intro h
    rw [compute_match_global_eq, h]
    norm_num [round4_zero]

/-- Witness for C1 (amended): concrete empty records and an all-zero caller
weight mapping, whose merged weights are all zero and whose global score is
exactly `0.0`. -/
theorem global_score_plain_weighted_sum_witness :
    mergeW (some ⟨some 0, some 0, some 0, some 0, some 0⟩) = ⟨0, 0, 0, 0, 0⟩ ∧
    (compute_match ⟨2025, 10⟩ (fun _ => [[1]]) {} {}
      (some ⟨some 0, some 0, some 0, some 0, some 0⟩)).global_score = 0 :=
  ⟨rfl,
    (global_score_plain_weighted_sum ⟨2025, 10⟩ (fun _ => [[1]]) {} {}
      (some ⟨some 0, some 0, some 0, some 0, some 0⟩)).2 rfl⟩

/-- Counterexample to C1 as stated: with the caller weights `{skills: 0}`
and a CV/JD pair scoring `(0, 0, 0, 1, 0)`, the code returns the plain
weighted sum `0.2` while the claimed normalized average over the positive
weights is `0.2 / 0.65 = 4/13`. -/
theorem global_score_spec_quotient_cex :
    (compute_match ⟨2025, 10⟩ (fun _ => []) {} {}
      (some { skills := some 0 })).global_score = 1/5 ∧
    specGlobalScore (mergeW (some { skills := some 0 }))
      (rawScore ⟨2025, 10⟩ (fun _ => []) {} {}) = 4/13 ∧
    (1/5 : ℝ) ≠ 4/13 := by
  have ht : title_similarity (fun _ => []) ({} : CVRec) ({} : JDRec) = 0 := by
    decide
  have hsk : skills_similarity (fun _ => []) ({} : CVRec) ({} : JDRec) = 0 :=
    skills_similarity_zero_of_absent _ _ _ (Or.inl (by decide))
  have hc : certs_similarity (fun _ => []) ({} : CVRec) ({} : JDRec) = 0 :=
    certs_similarity_zero_of_absent _ _ _ (Or.inl (by decide))
  have hex : experience_score ⟨2025, 10⟩ ({} : CVRec) ({} : JDRec) = 1 := by
    decide
  have hl : location_score ({} : CVRec) ({} : JDRec) = 0 := by
    decide
  refine ⟨?_, ?_, by norm_num⟩
  · rw [compute_match_global_eq, ht, hsk, hc, hex, hl]
    norm_num [mergeW, DEFAULT_WEIGHTS]
    rw [round4_eq_of_mul _ 2000 (by norm_num)]
    norm_num
  · unfold specGlobalScore
    simp only [dims, List.map_cons, List.map_nil, List.sum_cons, List.sum_nil,
      wOf, rawScore, mergeW, DEFAULT_WEIGHTS]
    rw [ht, hsk, hc, hex, hl]
    norm_num

/-- Unfolding lemma: rounded title score field. -/
theorem compute_match_score_title_eq (today : PDate)
    (e : List Str → List (List ℚ)) (cv : CVRec) (jd : JDRec) (w : Option WOv) :
    (compute_match today e cv jd w).scores.title =
      round4 ((title_similarity e cv jd : ℚ) : ℝ) := rfl

/-- Unfolding lemma: rounded skills score field. -/
theorem compute_match_score_skills_eq (today : PDate)
    (e : List Str → List (List ℚ)) (cv : CVRec) (jd : JDRec) (w : Option WOv) :
    (compute_match today e cv jd w).scores.skills =
      round4 (skills_similarity e cv jd) := rfl

/-- Unfolding lemma: rounded certifications score field. -/
theorem compute_match_score_certs_eq (today : PDate)
    (e : List Str → List (List ℚ)) (cv : CVRec) (jd : JDRec) (w : Option WOv) :
    (compute_match today e cv jd w).scores.certifications =
      round4 (certs_similarity e cv jd) := rfl

/-- Unfolding lemma: rounded experience score field. -/
theorem compute_match_score_experience_eq (today : PDate)
    (e : List Str → List (List ℚ)) (cv : CVRec) (jd : JDRec) (w : Option WOv) :
    (compute_match today e cv jd w).scores.experience =
      round4 ((experience_score today cv jd : ℚ) : ℝ) := rfl

/-- Unfolding lemma: rounded location score field. -/
theorem compute_match_score_location_eq (today : PDate)
    (e : List Str → List (List ℚ)) (cv : CVRec) (jd : JDRec) (w : Option WOv) :
    (compute_match today e cv jd w).scores.location =
      round4 ((location_score cv jd : ℚ) : ℝ) := rfl

/-- Raw title similarity lies in `[-1, 1]` whenever the embedder returns one
unit vector per input string (Cauchy–Schwarz). -/
theorem title_similarity_raw_bound (e : List Str → List (List ℚ))
    (cv : CVRec) (jd : JDRec)
    (hlen : ∀ ts : List Str, (e ts).length = ts.length)
    (hunit : ∀ ts : List Str, ∀ v ∈ e ts, sumSqL v = (1 : ℚ)) :
    -1 ≤ title_similarity e cv jd ∧ title_similarity e cv jd ≤ 1 := by
  unfold title_similarity
  split_ifs with h
  · norm_num
  · have h2 : (e [normspace cv.basics.current_title, normspace jd.title]).length = 2 := by
      rw [hlen]
      rfl
    obtain ⟨u, v, huv⟩ := List.length_eq_two.mp h2
    rw [huv]
    have hu : sumSqL u = 1 := hunit _ u (by rw [huv]; simp)
    have hv : sumSqL v = 1 := hunit _ v (by rw [huv]; simp)
    exact dotL_bound u v (le_of_eq hu) (le_of_eq hv)

/-- Dot product guarded by the two pooled options lies in `[-1, 1]` when
every produced vector has squared norm at most one. -/
theorem match_pool_dot_bound (oa ob : Option (List ℝ))
    (ha : ∀ u, oa = some u → sumSqL u ≤ 1)
    (hb : ∀ v, ob = some v → sumSqL v ≤ 1) :
    -1 ≤ (match oa, ob with | some u, some v => dotL u v | _, _ => (0 : ℝ)) ∧
      (match oa, ob with | some u, some v => dotL u v | _, _ => (0 : ℝ)) ≤ 1 := by
  rcases oa with _ | u <;> rcases ob with _ | v
  · exact ⟨by norm_num, by norm_num⟩
  · exact ⟨by norm_num, by norm_num⟩
  · exact ⟨by norm_num, by norm_num⟩
  · exact dotL_bound u v (ha u rfl) (hb v rfl)

/-- Raw skills similarity lies in `[-1, 1]` unconditionally: the pooled
vectors are unit or zero by construction. -/
theorem skills_similarity_raw_bound (e : List Str → List (List ℚ))
    (cv : CVRec) (jd : JDRec) :
    -1 ≤ skills_similarity e cv jd ∧ skills_similarity e cv jd ≤ 1 := by
  unfold skills_similarity
  split_ifs with h
  · norm_num
  · exact match_pool_dot_bound _ _
      (fun u hu => mean_pool_sumSq_le_one _ u hu)
      (fun v hv => mean_pool_sumSq_le_one _ v hv)

/-- Raw certifications similarity lies in `[-1, 1]` unconditionally. -/
theorem certs_similarity_raw_bound (e : List Str → List (List ℚ))
    (cv : CVRec) (jd : JDRec) :
    -1 ≤ certs_similarity e cv jd ∧ certs_similarity e cv jd ≤ 1 := by
  unfold certs_similarity
  split_ifs with h
  · norm_num
  · exact match_pool_dot_bound _ _
      (fun u hu => mean_pool_sumSq_le_one _ u hu)
      (fun v hv => mean_pool_sumSq_le_one _ v hv)

/-- Raw experience score lies in `[0, 1]`. -/
theorem experience_score_raw_bound (today : PDate) (cv : CVRec) (jd : JDRec) :
    0 ≤ experience_score today cv jd ∧ experience_score today cv jd ≤ 1 := by
  unfold experience_score
  split_ifs with h
  · norm_num
  · have hpos : 0 < jdYears jd := lt_of_not_le h
    have hy : 0 ≤ cv_experience_years today cv := le_max_left 0 _
    exact ⟨le_min (div_nonneg hy hpos.le) zero_le_one, min_le_right _ _⟩

/-- Raw location score lies in `[0, 1]`. -/
theorem location_score_raw_bound (cv : CVRec) (jd : JDRec) :
    0 ≤ location_score cv jd ∧ location_score cv jd ≤ 1 := by
  unfold location_score
  split_ifs <;> norm_num

/-- Rounding preserves integer-bounded intervals. -/
theorem round4_in_Icc (x : ℝ) (a b : ℤ) (ha : (a : ℝ) ≤ x) (hb : x ≤ (b : ℝ)) :
    (a : ℝ) ≤ round4 x ∧ round4 x ≤ (b : ℝ) :=
  ⟨int_le_round4 x a ha, round4_le_int x b hb⟩

/-- C2 (amended): whenever the embedding model returns one unit-norm vector
per input string, each returned per-dimension score lies in `[-1, 1]` (the
experience and location scores always lie in `[0, 1]`), and the global score
lies in `[-1, 1]` provided additionally that all merged weights are
non-negative and sum to at most one. -/
theorem dimension_scores_bounded (today : PDate)
    (e : List Str → List (List ℚ)) (cv : CVRec) (jd : JDRec) (w : Option WOv)
    (hlen : ∀ ts : List Str, (e ts).length = ts.length)
    (hunit : ∀ ts : List Str, ∀ v ∈ e ts, sumSqL v = (1 : ℚ)) :
    (-1 ≤ (compute_match today e cv jd w).scores.title ∧
      (compute_match today e cv jd w).scores.title ≤ 1) ∧
    (-1 ≤ (compute_match today e cv jd w).scores.skills ∧
      (compute_match today e cv jd w).scores.skills ≤ 1) ∧
    (-1 ≤ (compute_match today e cv jd w).scores.certifications ∧
      (compute_match today e cv jd w).scores.certifications ≤ 1) ∧
    (0 ≤ (compute_match today e cv jd w).scores.experience ∧
      (compute_match today e cv jd w).scores.experience ≤ 1) ∧
    (0 ≤ (compute_match today e cv jd w).scores.location ∧
      (compute_match today e cv jd w).scores.location ≤ 1) ∧
    ((0 ≤ (mergeW w).title ∧ 0 ≤ (mergeW w).skills ∧
        0 ≤ (mergeW w).certifications ∧ 0 ≤ (mergeW w).experience ∧
        0 ≤ (mergeW w).location) →
      (mergeW w).title + (mergeW w).skills + (mergeW w).certifications
          + (mergeW w).experience + (mergeW w).location ≤ 1 →
      -1 ≤ (compute_match today e cv jd w).global_score ∧
        (compute_match today e cv jd w).global_score ≤ 1) := by
  have htb := title_similarity_raw_bound e cv jd hlen hunit
  have hsb := skills_similarity_raw_bound e cv jd
  have hcb := certs_similarity_raw_bound e cv jd
  have heb := experience_score_raw_bound today cv jd
  have hlb := location_score_raw_bound cv jd
  have htbR : (-1 : ℝ) ≤ ((title_similarity e cv jd : ℚ) : ℝ) ∧
      ((title_similarity e cv jd : ℚ) : ℝ) ≤ 1 := by
    constructor
    · exact_mod_cast htb.1
    · exact_mod_cast htb.2
  have hebR : (0 : ℝ) ≤ ((experience_score today cv jd : ℚ) : ℝ) ∧
      ((experience_score today cv jd : ℚ) : ℝ) ≤ 1 := by
    constructor
    · exact_mod_cast heb.1
    · exact_mod_cast heb.2
  have hlbR : (0 : ℝ) ≤ ((location_score cv jd : ℚ) : ℝ) ∧
      ((location_score cv jd : ℚ) : ℝ) ≤ 1 := by
    constructor
    · exact_mod_cast hlb.1
    · exact_mod_cast hlb.2
  have hIcc : ∀ x : ℝ, -1 ≤ x → x ≤ 1 → -1 ≤ round4 x ∧ round4 x ≤ 1 := by
    intro x h1 h2
    have := round4_in_Icc x (-1) 1 (by push_cast; linarith) (by push_cast; linarith)
    constructor
    · have := this.1
      push_cast at this
      linarith
    · have := this.2
      push_cast at this
      linarith
  have hIcc01 : ∀ x : ℝ, 0 ≤ x → x ≤ 1 → 0 ≤ round4 x ∧ round4 x ≤ 1 := by
    intro x h1 h2
    have := round4_in_Icc x 0 1 (by push_cast; linarith) (by push_cast; linarith)
    constructor
    · have := this.1
      push_cast at this
      linarith
    · have := this.2
      push_cast at this
      linarith
  refine ⟨?_, ?_, ?_, ?_, ?_, ?_⟩
  · rw [compute_match_score_title_eq]
    exact hIcc _ htbR.1 htbR.2
  · rw [compute_match_score_skills_eq]
    exact hIcc _ hsb.1 hsb.2
  · rw [compute_match_score_certs_eq]
    exact hIcc _ hcb.1 hcb.2
  · rw [compute_match_score_experience_eq]
    exact hIcc01 _ hebR.1 hebR.2
  · rw [compute_match_score_location_eq]
    exact hIcc01 _ hlbR.1 hlbR.2
  · intro hw hsum
    rw [compute_match_global_eq]
    obtain ⟨hw1, hw2, hw3, hw4, hw5⟩ := hw
    have hw1R : (0 : ℝ) ≤ ((mergeW w).title : ℝ) := by exact_mod_cast hw1
    have hw2R : (0 : ℝ) ≤ ((mergeW w).skills : ℝ) := by exact_mod_cast hw2
    have hw3R : (0 : ℝ) ≤ ((mergeW w).certifications : ℝ) := by exact_mod_cast hw3
    have hw4R : (0 : ℝ) ≤ ((mergeW w).experience : ℝ) := by exact_mod_cast hw4
    have hw5R : (0 : ℝ) ≤ ((mergeW w).location : ℝ) := by exact_mod_cast hw5
    have hsumR : ((mergeW w).title : ℝ) + ((mergeW w).skills : ℝ)
        + ((mergeW w).certifications : ℝ) + ((mergeW w).experience : ℝ)
        + ((mergeW w).location : ℝ) ≤ 1 := by exact_mod_cast hsum
    have p1a := mul_le_mul_of_nonneg_left htbR.2 hw1R
    have p1b := mul_le_mul_of_nonneg_left htbR.1 hw1R
    have p2a := mul_le_mul_of_nonneg_left hsb.2 hw2R
    have p2b := mul_le_mul_of_nonneg_left hsb.1 hw2R
    have p3a := mul_le_mul_of_nonneg_left hcb.2 hw3R
    have p3b := mul_le_mul_of_nonneg_left hcb.1 hw3R
    have p4a := mul_le_mul_of_nonneg_left hebR.2 hw4R
    have p4b := mul_le_mul_of_nonneg_left hebR.1 hw4R
    have p5a := mul_le_mul_of_nonneg_left hlbR.2 hw5R
    have p5b := mul_le_mul_of_nonneg_left hlbR.1 hw5R
    apply hIcc
    · nlinarith [p1b, p2b, p3b, p4b, p5b, hsumR]
    · nlinarith [p1a, p2a, p3a, p4a, p5a, hsumR]

/-- Witness for C2 (amended): a constant unit embedder and empty records,
with the default weights (non-negative, summing to one). -/
theorem dimension_scores_bounded_witness :
    (∀ ts : List Str,
      ((fun ts : List Str => ts.map (fun _ => ([1] : List ℚ))) ts).length
        = ts.length) ∧
    (∀ ts : List Str,
      ∀ v ∈ (fun ts : List Str => ts.map (fun _ => ([1] : List ℚ))) ts,
        sumSqL v = (1 : ℚ)) ∧
    (-1 ≤ (compute_match ⟨2025, 10⟩
        (fun ts : List Str => ts.map (fun _ => ([1] : List ℚ)))
        {} {} none).scores.title ∧
      (compute_match ⟨2025, 10⟩
        (fun ts : List Str => ts.map (fun _ => ([1] : List ℚ)))
        {} {} none).scores.title ≤ 1) := by
  have h1 : ∀ ts : List Str,
      ((fun ts : List Str => ts.map (fun _ => ([1] : List ℚ))) ts).length
        = ts.length := by
    intro ts
    simp
  have h2 : ∀ ts : List Str,
      ∀ v ∈ (fun ts : List Str => ts.map (fun _ => ([1] : List ℚ))) ts,
        sumSqL v = (1 : ℚ) := by
    intro ts v hv
    obtain ⟨x, hx, hxv⟩ := List.mem_map.mp hv
    rw [← hxv]
    norm_num [sumSqL]
  exact ⟨h1, h2,
    (dimension_scores_bounded ⟨2025, 10⟩
      (fun ts : List Str => ts.map (fun _ => ([1] : List ℚ)))
      {} {} none h1 h2).1⟩

/-- Counterexample to C2 as stated: an embedder returning the opposite unit
vectors for the two titles makes the returned title score `-1`, outside
`[0, 1]`. -/
theorem dimension_score_out_of_range_cex :
    (compute_match ⟨2025, 10⟩ (fun _ => [[1], [-1]])
      { basics := { current_title := ['a'] } }
      ({ title := ['b'] } : JDRec) none).scores.title < 0 := by
  rw [compute_match_score_title_eq]
  have ht : title_similarity (fun _ => [[1], [-1]])
      { basics := { current_title := ['a'] } } ({ title := ['b'] } : JDRec)
      = -1 := by
    show (if normspace ['a'] = [] ∨ normspace ['b'] = [] then (0 : ℚ)
      else dotL (([[1], [-1]] : List (List ℚ)).getD 0 [])
        (([[1], [-1]] : List (List ℚ)).getD 1 [])) = -1
    rw [if_neg (by decide :
      ¬(normspace (['a'] : Str) = [] ∨ normspace (['b'] : Str) = []))]
    norm_num [dotL]
  rw [ht]
  have hcast : (((-1 : ℚ)) : ℝ) = -1 := by norm_num
  rw [hcast, round4_eq_of_mul (-1 : ℝ) (-10000) (by norm_num)]
  norm_num

/-- Componentwise sum of rectangular vectors has the common length. -/
theorem vsumL_length (d : ℕ) :
    ∀ vs : List (List ℚ), vs ≠ [] → (∀ v ∈ vs, v.length = d) →
      (vsumL vs).length = d := by
  intro vs
  induction vs with
  | nil => intro h; exact absurd rfl h
  | cons v rest ih =>
    intro _ hrect
    cases rest with
    | nil =>
      show v.length = d
      exact hrect v (by simp)
    | cons w ws =>
      show (List.zipWith (fun x y => x + y) v (vsumL (w :: ws))).length = d
      rw [List.length_zipWith, ih (by simp) (fun u hu => hrect u (by simp [hu]))]
      rw [hrect v (by simp)]
      exact min_self d

/-- Entry `i` of a componentwise sum of equal-length vectors. -/
theorem getD_zipWith_add (a b : List ℚ) (i : ℕ) (ha : i < a.length)
    (hb : i < b.length) :
    (List.zipWith (fun x y => x + y) a b).getD i 0 = a.getD i 0 + b.getD i 0 := by
  induction a generalizing b i with
  | nil => simp at ha
  | cons x xs ih =>
    cases b with
    | nil => simp at hb
    | cons y ys =>
      cases i with
      | zero => simp
      | succ j =>
        simp only [List.zipWith_cons_cons, List.getD_cons_succ]
        exact ih ys j (by simpa using ha) (by simpa using hb)

/-- Entry `i` of `vsumL` over non-empty rectangular vectors is the sum of
the vectors' entries `i`. -/
theorem vsumL_getD (d : ℕ) (i : ℕ) (hi : i < d) :
    ∀ vs : List (List ℚ), vs ≠ [] → (∀ v ∈ vs, v.length = d) →
      (vsumL vs).getD i 0 = (vs.map (fun v => v.getD i 0)).sum := by
  intro vs
  induction vs with
  | nil => intro h; exact absurd rfl h
  | cons v rest ih =>
    intro _ hrect
    cases rest with
    | nil =>
      show v.getD i 0 = (List.map (fun v => v.getD i 0) [v]).sum
      simp
    | cons w ws =>
      show (List.zipWith (fun x y => x + y) v (vsumL (w :: ws))).getD i 0 = _
      rw [getD_zipWith_add v (vsumL (w :: ws)) i
        (by rw [hrect v (by simp)]; exact hi)
        (by rw [vsumL_length d (w :: ws) (by simp)
          (fun u hu => hrect u (by simp [hu]))]; exact hi)]
      rw [ih (by simp) (fun u hu => hrect u (by simp [hu]))]
      simp

/-- Entry `i` of a vector scaled componentwise by `1/c`. -/
theorem getD_map_div (l : List ℚ) (c : ℚ) (i : ℕ) (hi : i < l.length) :
    (l.map (fun x => x / c)).getD i 0 = l.getD i 0 / c := by
  induction l generalizing i with
  | nil => simp at hi
  | cons x xs ih =>
    cases i with
    | zero => simp
    | succ j =>
      simp only [List.map_cons, List.getD_cons_succ]
      exact ih j (by simpa using hi)

/-- Entry `i` of the componentwise mean of non-empty rectangular vectors is
the mean of the vectors' entries `i` (`vectors.mean(axis=0)`). -/
theorem meanVec_getD (vs : List (List ℚ)) (d : ℕ) (hne : vs ≠ [])
    (hrect : ∀ v ∈ vs, v.length = d) (i : ℕ) (hi : i < d) :
    (meanVec vs).getD i 0 =
      (vs.map (fun v => v.getD i 0)).sum / (vs.length : ℚ) := by
  unfold meanVec
  rw [getD_map_div _ _ i (by rw [vsumL_length d vs hne hrect]; exact hi)]
  rw [vsumL_getD d i hi vs hne hrect]

/-- C8: on a non-empty rectangular family of vectors, `_mean_pool` succeeds
and returns the componentwise mean re-normalized to unit length, except that
a mean of squared norm zero is returned unnormalized; in the normalizing
branch the divisor is provably non-zero, so the operation never divides by
zero. -/
theorem mean_pool_never_divides_by_zero (vs : List (List ℚ)) (d : ℕ)
    (hne : vs ≠ []) (hrect : ∀ v ∈ vs, v.length = d) :
    ∃ out : List ℝ, mean_pool vs = some out ∧
      (∀ i : ℕ, i < d → (meanVec vs).getD i 0 =
        (vs.map (fun v => v.getD i 0)).sum / (vs.length : ℚ)) ∧
      (sumSqL (meanVec vs) = 0 → out = castVec (meanVec vs)) ∧
      (sumSqL (meanVec vs) ≠ 0 →
        Real.sqrt ((sumSqL (meanVec vs) : ℚ) : ℝ) ≠ 0 ∧
        out = (meanVec vs).map
          (fun (q : ℚ) => (q : ℝ) / Real.sqrt ((sumSqL (meanVec vs) : ℚ) : ℝ)) ∧
        sumSqL out = 1) := by
  have hmean := fun i hi => meanVec_getD vs d hne hrect i hi
  by_cases hz : sumSqL (meanVec vs) = 0
  · refine ⟨castVec (meanVec vs), ?_, hmean, fun _ => rfl, fun hcon => absurd hz hcon⟩
    unfold mean_pool
    rw [if_neg hne, if_pos]
    rw [hz]
    push_cast
    exact Real.sqrt_zero
  · have hSpos : (0 : ℝ) < ((sumSqL (meanVec vs) : ℚ) : ℝ) := by
      have h1 : (0 : ℚ) ≤ sumSqL (meanVec vs) := sumSqL_nonneg _
      have h2 : (0 : ℚ) < sumSqL (meanVec vs) := lt_of_le_of_ne h1 (Ne.symm hz)
      exact_mod_cast h2
    have hsqrt : Real.sqrt ((sumSqL (meanVec vs) : ℚ) : ℝ) ≠ 0 := by
      rw [Ne, Real.sqrt_eq_zero hSpos.le]
      exact ne_of_gt hSpos
    refine ⟨(meanVec vs).map
        (fun (q : ℚ) => (q : ℝ) / Real.sqrt ((sumSqL (meanVec vs) : ℚ) : ℝ)),
      ?_, hmean, fun hcon => absurd hcon hz, fun _ => ⟨hsqrt, rfl, ?_⟩⟩
    · unfold mean_pool
      rw [if_neg hne, if_neg hsqrt]
    · rw [sumSqL_map_div, Real.mul_self_sqrt hSpos.le]
      exact div_self (ne_of_gt hSpos)

/-- Witness for C8 at the concrete pair of vectors `[1, 0]` and `[0, 1]`. -/
theorem mean_pool_never_divides_by_zero_witness :
    (([[1, 0], [0, 1]] : List (List ℚ)) ≠ []) ∧
    (∀ v ∈ ([[1, 0], [0, 1]] : List (List ℚ)), v.length = 2) ∧
    ∃ out : List ℝ, mean_pool [[1, 0], [0, 1]] = some out ∧
      (∀ i : ℕ, i < 2 → (meanVec [[1, 0], [0, 1]]).getD i 0 =
        (([[1, 0], [0, 1]] : List (List ℚ)).map (fun v => v.getD i 0)).sum
          / ((([[1, 0], [0, 1]] : List (List ℚ)).length : ℕ) : ℚ)) ∧
      (sumSqL (meanVec [[1, 0], [0, 1]]) = 0 →
        out = castVec (meanVec [[1, 0], [0, 1]])) ∧
      (sumSqL (meanVec [[1, 0], [0, 1]]) ≠ 0 →
        Real.sqrt ((sumSqL (meanVec [[1, 0], [0, 1]]) : ℚ) : ℝ) ≠ 0 ∧
        out = (meanVec [[1, 0], [0, 1]]).map
          (fun (q : ℚ) => (q : ℝ) /
            Real.sqrt ((sumSqL (meanVec [[1, 0], [0, 1]]) : ℚ) : ℝ)) ∧
        sumSqL out = 1) :=
  ⟨by decide, by decide,
    mean_pool_never_divides_by_zero [[1, 0], [0, 1]] 2 (by decide) (by decide)⟩
